import Mathlib

/-!
Verification of the CoNLL NER tag-frequency balancer (`src/app.py`,
class `NERBalancer`).

The corpus model works on lines represented as `List Char`; a file is the
list of its lines (Python's `for line in f` yields exactly the lines).
Dictionaries keyed by tags are represented as insertion-ordered association
lists (per-sentence tag counts, target frequencies) or as total functions
`Tag → Int` defaulting to 0 (the `defaultdict(int)` aggregate counts, which
the algorithm never iterates over).  The float guard ratios `0.8` and `1.1`
of `should_remove_sentence` / `balance_dataset` are rendered exactly as the
rationals 4/5 and 11/10, by clearing denominators in the comparisons.
CPython iterates a set of the small integers `0 .. n-1` in ascending numeric
order (integers hash to themselves), so the selection set is modelled as the
ascending list of its elements and the pass snapshots as that list.
-/

namespace CoNLL

/-- A line of the input file, as its sequence of characters. -/
abbrev Line := List Char

/-- A token (word) of the corpus. -/
abbrev Tok := List Char

/-- An entity label (tag). -/
abbrev Tag := List Char

/-- A sentence: ordered (word, tag) pairs, as produced by `read_conll`. -/
abbrev Sentence := List (Tok × Tag)

/-- Whitespace test used by strip and split (Python `str.strip`/`str.split`). -/
def isWs (c : Char) : Bool := c.isWhitespace

/-- Python `line.strip()`: drop whitespace from both ends (app.py line 20). -/
def stripLine (l : Line) : Line :=
  ((l.dropWhile isWs).reverse.dropWhile isWs).reverse

/-- Python `str.startswith` on character lists. -/
def startsWith : Line → Line → Bool
  | [], _ => true
  | _ :: _, [] => false
  | p :: ps, c :: cs => decide (p = c) && startsWith ps cs

/-- The document-boundary marker `-DOCSTART-` (app.py line 21). -/
def docstartMarker : Line := ['-', 'D', 'O', 'C', 'S', 'T', 'A', 'R', 'T', '-']

/-- Worker for `splitWs`; `acc` holds the reversed current field. -/
def splitWsAux : Line → Line → List Line
  | [], acc => if acc = [] then [] else [acc.reverse]
  | c :: cs, acc =>
    if isWs c then
      if acc = [] then splitWsAux cs [] else acc.reverse :: splitWsAux cs []
    else splitWsAux cs (c :: acc)

/-- Python `line.split()`: the maximal runs of non-whitespace characters
(app.py line 27). -/
def splitWs (l : Line) : List Line := splitWsAux l []

/-- The loop body of `read_conll` (app.py lines 19-33): `out` holds the
finished sentences, `acc` the sentence currently being accumulated.
`parts[0]` / `parts[-1]` are `headD` / `getLastD`; on a stripped non-empty
line the split is never empty, so the defaults are unreachable. -/
def read_fold : List Line → List Sentence → Sentence → List Sentence
  | [], out, acc => if acc = [] then out else out ++ [acc]
  | l :: ls, out, acc =>
    let s := stripLine l
    if startsWith docstartMarker s || s.isEmpty then
      read_fold ls (if acc = [] then out else out ++ [acc]) []
    else
      read_fold ls out (acc ++ [((splitWs s).headD [], (splitWs s).getLastD [])])

/-- `NERBalancer.read_conll` (app.py lines 13-35), on the lines of the file. -/
def read_conll (lines : List Line) : List Sentence := read_fold lines [] []

/-- The two placeholder columns written between word and tag
(`f"{word} -X- _ {tag}"`, app.py line 139). -/
def midCols : Line := [' ', '-', 'X', '-', ' ', '_', ' ']

/-- The synthetic header `-DOCSTART- -X- O O` (app.py line 136). -/
def headerLine : Line := docstartMarker ++ [' ', '-', 'X', '-', ' ', 'O', ' ', 'O']

/-- The output line written for one (word, tag) pair (app.py line 139). -/
def dataLine (p : Tok × Tag) : Line := p.1 ++ midCols ++ p.2

/-- `NERBalancer.write_conll` (app.py lines 133-140), as the list of lines of
the produced file: header, blank line, then each sentence's data lines
followed by a blank line. -/
def write_conll (sents : List Sentence) : List Line :=
  headerLine :: [] :: sents.flatMap (fun s => s.map dataLine ++ [[]])

/-- The no-entity sentinel label `'O'` (app.py line 41). -/
def oTag : Tag := ['O']

/-- `counts[tag] += 1` on an insertion-ordered association list. -/
def bump : List (Tag × Nat) → Tag → List (Tag × Nat)
  | [], t => [(t, 1)]
  | p :: ps, t => if p.1 = t then (p.1, p.2 + 1) :: ps else p :: bump ps t

/-- `NERBalancer.get_sentence_tag_counts` (app.py lines 37-43). -/
def get_sentence_tag_counts (s : Sentence) : List (Tag × Nat) :=
  s.foldl (fun acc p => if p.2 = oTag then acc else bump acc p.2) []

/-- Lookup in the target-frequency dictionary (`tag in self.target_frequencies`
/ `self.target_frequencies[tag]`). -/
def lookupTag : List (Tag × Int) → Tag → Option Int
  | [], _ => none
  | p :: ps, t => if p.1 = t then some p.2 else lookupTag ps t

/-- `for tag, count in sc.items(): current_counts[tag] += count`
(app.py lines 112-113), on the total-function view of the defaultdict. -/
def dictAdd (cc : Tag → Int) (sc : List (Tag × Nat)) : Tag → Int :=
  sc.foldl (fun f p => fun t => if t = p.1 then f t + (p.2 : Int) else f t) cc

/-- `for tag, count in sc.items(): current_counts[tag] -= count`
(app.py lines 95-96). -/
def dictSub (cc : Tag → Int) (sc : List (Tag × Nat)) : Tag → Int :=
  sc.foldl (fun f p => fun t => if t = p.1 then f t - (p.2 : Int) else f t) cc

/-- `NERBalancer.get_current_counts` (app.py lines 45-52); the unused
`sentences` parameter of the source is dropped. -/
def get_current_counts (stc : List (List (Tag × Nat))) (sel : List Nat) : Tag → Int :=
  sel.foldl (fun cc i => dictAdd cc (stc.getD i [])) (fun _ => 0)

/-- `NERBalancer.calculate_frequency_score` (app.py lines 54-60):
minus the sum over target labels of |current - target|. -/
def calculate_frequency_score (tgt : List (Tag × Int)) (cc : Tag → Int) : Int :=
  tgt.foldl (fun s p => s - ((cc p.1 - p.2).natAbs : Int)) 0

/-- Per-label body of `should_remove_sentence` (app.py lines 65-74): a label
absent from the targets imposes nothing; a target label passes iff the
aggregate is not under target and removing the contribution keeps it at or
above 80% of the target.  The source's float comparison
`current - count < target * 0.8` is rendered exactly as
`5 * (current - count) < 4 * target`. -/
def remove_label_ok (cc : Tag → Int) (p : Tag × Nat) : Option Int → Bool
  | none => true
  | some t => decide (t ≤ cc p.1) && decide (4 * t ≤ 5 * (cc p.1 - (p.2 : Int)))

/-- `NERBalancer.should_remove_sentence` (app.py lines 62-75): every label of
the sentence's counts must pass `remove_label_ok`. -/
def should_remove_sentence (tgt : List (Tag × Int)) (sc : List (Tag × Nat))
    (cc : Tag → Int) : Bool :=
  sc.all fun p => remove_label_ok cc p (lookupTag tgt p.1)

/-- Per-label body of the inline `can_add` check (app.py lines 104-108): a
target label passes iff adding the contribution stays at or below 110% of the
target; `current + count > target * 1.1` is rendered exactly as
`11 * target < 10 * (current + count)`. -/
def add_label_ok (cc : Tag → Int) (p : Tag × Nat) : Option Int → Bool
  | none => true
  | some t => decide (10 * (cc p.1 + (p.2 : Int)) ≤ 11 * t)

/-- The inline `can_add` check of the addition pass (app.py lines 103-108). -/
def can_add_sentence (tgt : List (Tag × Int)) (sc : List (Tag × Nat))
    (cc : Tag → Int) : Bool :=
  sc.all fun p => add_label_ok cc p (lookupTag tgt p.1)

/-- State threaded through the removal/addition passes: the selection (as the
ascending list of its members), the aggregate counts and the `improved` flag. -/
structure PassState where
  selected : List Nat
  counts : Tag → Int
  improved : Bool

/-- `selected.add idx` keeping the ascending-list representation; a no-op when
the index is already present (set semantics). -/
def insertSel (x : Nat) : List Nat → List Nat
  | [] => [x]
  | y :: ys => if x < y then x :: y :: ys else if x = y then y :: ys else y :: insertSel x ys

/-- One candidate of the removal pass (app.py lines 91-97). -/
def remove_step (tgt : List (Tag × Int)) (stc : List (List (Tag × Nat)))
    (p : PassState) (idx : Nat) : PassState :=
  let sc := stc.getD idx []
  if should_remove_sentence tgt sc p.counts then
    { selected := p.selected.erase idx, counts := dictSub p.counts sc, improved := true }
  else p

/-- The removal pass (app.py lines 91-97): the snapshot `list(selected)` is
iterated while the live selection is mutated. -/
def removal_pass (tgt : List (Tag × Int)) (stc : List (List (Tag × Nat)))
    (p : PassState) : PassState :=
  p.selected.foldl (remove_step tgt stc) p

/-- One candidate of the addition pass (app.py lines 101-114). -/
def add_step (tgt : List (Tag × Int)) (stc : List (List (Tag × Nat)))
    (p : PassState) (idx : Nat) : PassState :=
  let sc := stc.getD idx []
  if can_add_sentence tgt sc p.counts then
    { selected := insertSel idx p.selected, counts := dictAdd p.counts sc, improved := true }
  else p

/-- The addition pass (app.py lines 100-114): candidates are
`set(range(n)) - selected`, iterated in ascending order. -/
def addition_pass (tgt : List (Tag × Int)) (stc : List (List (Tag × Nat)))
    (n : Nat) (p : PassState) : PassState :=
  ((List.range n).filter (fun i => decide (i ∉ p.selected))).foldl (add_step tgt stc) p

/-- State of the outer loop of `balance_dataset`. -/
structure BState where
  selected : List Nat
  counts : Tag → Int
  best_selected : List Nat
  best_score : Option Int

/-- `score > best_score`, with `none` standing for the initial
`float('-inf')` (app.py lines 81, 118). -/
def betterThan (score : Int) : Option Int → Bool
  | none => true
  | some b => decide (b < score)

/-- The two passes of one iteration (app.py lines 88-114): the removal pass
starting from a fresh `improved = False`, then the addition pass. -/
def pass2 (tgt : List (Tag × Int)) (stc : List (List (Tag × Nat)))
    (n : Nat) (st : BState) : PassState :=
  addition_pass tgt stc n
    (removal_pass tgt stc { selected := st.selected, counts := st.counts, improved := false })

/-- One iteration of `balance_dataset`'s loop body (app.py lines 88-120):
removal pass, addition pass, score computation, best-tracking update.
Returns the new state and the `improved` flag. -/
def iterate_once (tgt : List (Tag × Int)) (stc : List (List (Tag × Nat)))
    (n : Nat) (st : BState) : BState × Bool :=
  let p2 := pass2 tgt stc n st
  let score := calculate_frequency_score tgt p2.counts
  ({ selected := p2.selected, counts := p2.counts,
     best_selected := if betterThan score st.best_score then p2.selected else st.best_selected,
     best_score := if betterThan score st.best_score then some score else st.best_score },
   p2.improved)

/-- The bounded loop of `balance_dataset` (app.py lines 87-123): runs up to
the fuel many iterations, breaking after an iteration whose `improved` flag
is false.  Also returns the number of iterations performed. -/
def balance_loop (tgt : List (Tag × Int)) (stc : List (List (Tag × Nat)))
    (n : Nat) : Nat → BState → BState × Nat
  | 0, st => (st, 0)
  | k + 1, st =>
    let r := iterate_once tgt stc n st
    if r.2 then
      let r2 := balance_loop tgt stc n k r.1
      (r2.1, r2.2 + 1)
    else (r.1, 1)

/-- The state before the first iteration (app.py lines 80-85): all sentences
selected, aggregate counts built by `get_current_counts`, empty best selection,
best score `-inf`. -/
def initState (stc : List (List (Tag × Nat))) (n : Nat) : BState :=
  { selected := List.range n, counts := get_current_counts stc (List.range n),
    best_selected := [], best_score := none }

/-- Ordered insertion used by `sortAsc`. -/
def insOrd (x : Nat) : List Nat → List Nat
  | [] => [x]
  | y :: ys => if x ≤ y then x :: y :: ys else y :: insOrd x ys

/-- Python `sorted` on a list of indices (app.py line 131). -/
def sortAsc (l : List Nat) : List Nat := l.foldr insOrd []

/-- `NERBalancer.balance_dataset` (app.py lines 77-131). -/
def balance_dataset (tgt : List (Tag × Int)) (max_iterations : Nat)
    (sents : List Sentence) : List Sentence :=
  let stc := sents.map get_sentence_tag_counts
  let fin := (balance_loop tgt stc sents.length max_iterations (initState stc sents.length)).1
  (sortAsc fin.best_selected).map (fun i => sents.getD i [])

/-- Measurement function: the tag-`t` contribution of one sentence's counts. -/
def sumAt : List (Tag × Nat) → Tag → Int
  | [], _ => 0
  | p :: ps, t => (if t = p.1 then (p.2 : Int) else 0) + sumAt ps t

/-- Measurement function: the aggregate contribution of a selection. -/
def selSum (stc : List (List (Tag × Nat))) : List Nat → Tag → Int
  | [], _ => 0
  | i :: js, t => sumAt (stc.getD i []) t + selSum stc js t

/-- The count invariant: the maintained aggregate equals the one rebuilt from
scratch by `get_current_counts` over the current selection. -/
abbrev CountInv (stc : List (List (Tag × Nat))) (st : BState) : Prop :=
  ∀ t, st.counts t = get_current_counts stc st.selected t

/-- The selection is an ascending (hence duplicate-free) list of indices. -/
abbrev SortedSel (st : BState) : Prop := List.Pairwise (· < ·) st.selected

/-- Best-tracking invariant: whenever a best score has been recorded, it is
the score of the recorded best selection. -/
abbrev BestInv (tgt : List (Tag × Int)) (stc : List (List (Tag × Nat))) (st : BState) : Prop :=
  ∀ s, st.best_score = some s →
    calculate_frequency_score tgt (get_current_counts stc st.best_selected) = s

/-- Order on best scores, `none` standing for `-inf`. -/
def bestScoreLE : Option Int → Option Int → Prop
  | none, _ => True
  | some _, none => False
  | some x, some y => x ≤ y

/-- A token that serializes and re-parses cleanly: non-empty, whitespace-free,
and not starting with the document-boundary marker. -/
abbrev goodTok (w : Tok) : Prop :=
  w ≠ [] ∧ (∀ c ∈ w, isWs c = false) ∧ startsWith docstartMarker w = false

/-- A label that serializes and re-parses cleanly: non-empty and
whitespace-free. -/
abbrev goodLabel (t : Tag) : Prop := t ≠ [] ∧ ∀ c ∈ t, isWs c = false

/-- A sentence that round-trips: non-empty, all pairs clean. -/
abbrev goodSentence (s : Sentence) : Prop := s ≠ [] ∧ ∀ p ∈ s, goodTok p.1 ∧ goodLabel p.2

/-- First sentence of the spec's end-to-end example: labels `B-PER, O, O`. -/
def exS1 : Sentence :=
  [(['A', 'l', 'i', 'c', 'e'], ['B', '-', 'P', 'E', 'R']),
   (['i', 's'], ['O']),
   (['h', 'e', 'r', 'e'], ['O'])]

/-- Second sentence of the spec's end-to-end example: labels `B-LOC, I-LOC, O`. -/
def exS2 : Sentence :=
  [(['N', 'e', 'w'], ['B', '-', 'L', 'O', 'C']),
   (['Y', 'o', 'r', 'k'], ['I', '-', 'L', 'O', 'C']),
   (['c', 'i', 't', 'y'], ['O'])]

/-- Targets of the spec's end-to-end example: B-PER 1, B-LOC 1, I-LOC 1. -/
def exTargets : List (Tag × Int) :=
  [(['B', '-', 'P', 'E', 'R'], 1), (['B', '-', 'L', 'O', 'C'], 1),
   (['I', '-', 'L', 'O', 'C'], 1)]

/-- A sentence whose only label is the sentinel `O`, so its tag counts are
empty: the churn case of the removal/addition rules. -/
def exS3 : Sentence := [(['a'], ['O'])]

/-- Claim C1: removal admission rule.  A sentence passes
`should_remove_sentence` iff every label of its counts that is a target label
has its aggregate at or above target and would stay at or above 80% of target
after subtracting the sentence's contribution (the refusals `current < target`
and `current - count < 0.8 * target` are the negations of the two inequalities
below); a sentence whose counts contain no target label always passes. -/
theorem removal_admission_rule (tgt : List (Tag × Int)) (sc : List (Tag × Nat))
    (cc : Tag → Int) :
    (should_remove_sentence tgt sc cc = true ↔
      ∀ p ∈ sc, ∀ t, lookupTag tgt p.1 = some t →
        t ≤ cc p.1 ∧ 4 * t ≤ 5 * (cc p.1 - (p.2 : Int))) ∧
    ((∀ p ∈ sc, lookupTag tgt p.1 = none) → should_remove_sentence tgt sc cc = true) := by
  have hiff : should_remove_sentence tgt sc cc = true ↔
      ∀ p ∈ sc, ∀ t, lookupTag tgt p.1 = some t →
        t ≤ cc p.1 ∧ 4 * t ≤ 5 * (cc p.1 - (p.2 : Int)) := by
    unfold should_remove_sentence
    rw [List.all_eq_true]
    constructor
    · intro h p hp t ht
      have hx := h p hp
      rw [ht] at hx
      simpa [remove_label_ok, Bool.and_eq_true, decide_eq_true_iff] using hx
    · intro h p hp
      cases hlu : lookupTag tgt p.1 with
      | none => simp [remove_label_ok]
      | some t =>
        have hx := h p hp t hlu
        simp [remove_label_ok, hx.1, hx.2]
  refine ⟨hiff, fun h => hiff.mpr ?_⟩
  intro p hp t ht
  rw [h p hp] at ht
  cases ht

/-- Witness for C1: a concrete sentence whose counts touch no target label
passes the removal check. -/
theorem removal_admission_rule_witness :
    (∀ p ∈ get_sentence_tag_counts exS1, lookupTag [] p.1 = none) ∧
    should_remove_sentence [] (get_sentence_tag_counts exS1) (fun _ => 0) = true := by
  refine ⟨by decide, ?_⟩
  exact (removal_admission_rule [] (get_sentence_tag_counts exS1) (fun _ => 0)).2 (by decide)

/-- Claim C2: addition admission rule.  A candidate passes `can_add_sentence`
iff every target label it contributes to keeps its aggregate at or below 110%
of target after adding the contribution; non-target labels never block; and
the addition pass adds the candidate's index to the selection exactly when the
check passes. -/
theorem addition_admission_rule (tgt : List (Tag × Int)) (stc : List (List (Tag × Nat)))
    (sc : List (Tag × Nat)) (cc : Tag → Int) :
    (can_add_sentence tgt sc cc = true ↔
      ∀ p ∈ sc, ∀ t, lookupTag tgt p.1 = some t →
        10 * (cc p.1 + (p.2 : Int)) ≤ 11 * t) ∧
    ((∀ p ∈ sc, lookupTag tgt p.1 = none) → can_add_sentence tgt sc cc = true) ∧
    (∀ (p : PassState) (i : Nat),
      (add_step tgt stc p i).selected =
        if can_add_sentence tgt (stc.getD i []) p.counts then insertSel i p.selected
        else p.selected) := by
  have hiff : can_add_sentence tgt sc cc = true ↔
      ∀ p ∈ sc, ∀ t, lookupTag tgt p.1 = some t →
        10 * (cc p.1 + (p.2 : Int)) ≤ 11 * t := by
    unfold can_add_sentence
    rw [List.all_eq_true]
    constructor
    · intro h p hp t ht
      have hx := h p hp
      rw [ht] at hx
      simpa [add_label_ok, decide_eq_true_iff] using hx
    · intro h p hp
      cases hlu : lookupTag tgt p.1 with
      | none => simp [add_label_ok]
      | some t => simp [add_label_ok, h p hp t hlu]
  refine ⟨hiff, fun h => hiff.mpr ?_, fun p i => ?_⟩
  · intro p hp t ht
    rw [h p hp] at ht
    cases ht
  · simp only [add_step]
    by_cases hca : can_add_sentence tgt (stc.getD i []) p.counts = true
    · rw [if_pos hca, if_pos hca]
    · rw [if_neg hca, if_neg hca]

/-- Witness for C2: a concrete candidate with no target label passes the
addition check. -/
theorem addition_admission_rule_witness :
    (∀ p ∈ get_sentence_tag_counts exS2, lookupTag [] p.1 = none) ∧
    can_add_sentence [] (get_sentence_tag_counts exS2) (fun _ => 0) = true := by
  refine ⟨by decide, ?_⟩
  exact ((addition_admission_rule [] [] (get_sentence_tag_counts exS2) (fun _ => 0)).2.1
    (by decide))

/-- Claim C5: the loop performs at most `max_iterations` iterations, and with
`max_iterations = 0` the policy of the implementation is to return the empty
selection (the best-tracking state is never written, so `best_selected` stays
empty). -/
theorem termination_bound (tgt : List (Tag × Int)) (sents : List Sentence) (k : Nat) :
    (∀ st, (balance_loop tgt (sents.map get_sentence_tag_counts) sents.length k st).2 ≤ k) ∧
    balance_dataset tgt 0 sents = [] := by
  constructor
  · induction k with
    | zero => intro st; simp [balance_loop]
    | succ k ih =>
      intro st
      simp only [balance_loop]
      split
      · exact Nat.succ_le_succ (ih _)
      · exact Nat.succ_le_succ (Nat.zero_le k)
  · rfl

/-- Splitting a leading run of non-whitespace characters accumulates them. -/
theorem splitWsAux_nonws (w : Line) :
    ∀ (cs acc : Line), (∀ c ∈ w, isWs c = false) →
      splitWsAux (w ++ cs) acc = splitWsAux cs (w.reverse ++ acc) := by
  induction w with
  | nil => intro cs acc _; simp
  | cons a w ih =>
    intro cs acc h
    have ha : isWs a = false := h a (List.mem_cons_self a w)
    have hstep : splitWsAux ((a :: w) ++ cs) acc = splitWsAux (w ++ cs) (a :: acc) := by
      simp [splitWsAux, ha]
    rw [hstep, ih cs (a :: acc) (fun c hc => h c (List.mem_cons_of_mem a hc))]
    simp [List.append_assoc]

/-- A non-empty whitespace-free word followed by a space splits off as one
field. -/
theorem splitWs_word_space (w rest : Line) (hw : w ≠ [])
    (hall : ∀ c ∈ w, isWs c = false) :
    splitWs (w ++ ' ' :: rest) = w :: splitWs rest := by
  unfold splitWs
  rw [splitWsAux_nonws w (' ' :: rest) [] hall]
  have hws : isWs ' ' = true := by decide
  have hrev : w.reverse ≠ [] := by simpa using hw
  simp only [List.append_nil, splitWsAux, hws, if_true]
  rw [if_neg hrev]
  simp

/-- A non-empty whitespace-free word alone splits into that single field. -/
theorem splitWs_word_only (w : Line) (hw : w ≠ [])
    (hall : ∀ c ∈ w, isWs c = false) : splitWs w = [w] := by
  unfold splitWs
  have h2 : splitWsAux w [] = splitWsAux [] w.reverse := by
    have h3 := splitWsAux_nonws w [] [] hall
    simpa using h3
  have hrev : w.reverse ≠ [] := by simpa using hw
  rw [h2]
  simp only [splitWsAux]
  rw [if_neg hrev]
  simp

/-- Stripping is the identity when both ends are already clean. -/
theorem stripLine_eq_self (l : Line) (h1 : l.dropWhile isWs = l)
    (h2 : l.reverse.dropWhile isWs = l.reverse) : stripLine l = l := by
  unfold stripLine
  rw [h1, h2, List.reverse_reverse]

/-- The written data line `word -X- _ tag`, decomposed for the split lemmas. -/
theorem dataLine_decomp (w t : Tok) :
    dataLine (w, t) = w ++ ' ' :: (['-', 'X', '-'] ++ ' ' :: (['_'] ++ ' ' :: t)) := by
  simp [dataLine, midCols]

/-- A written data line is already stripped when word and tag are non-empty
and whitespace-free. -/
theorem stripLine_dataLine (w t : Tok) (hw : w ≠ []) (hw2 : ∀ c ∈ w, isWs c = false)
    (ht : t ≠ []) (ht2 : ∀ c ∈ t, isWs c = false) :
    stripLine (dataLine (w, t)) = dataLine (w, t) := by
  obtain ⟨a, w', rfl⟩ := List.exists_cons_of_ne_nil hw
  rcases List.eq_nil_or_concat t with h0 | ⟨t', z, htz⟩
  · exact absurd h0 ht
  rw [List.concat_eq_append] at htz
  subst htz
  have ha : isWs a = false := hw2 a (List.mem_cons_self a w')
  have hz : isWs z = false := ht2 z (by simp)
  apply stripLine_eq_self
  · have hshape : dataLine (a :: w', t' ++ [z]) = a :: (w' ++ (midCols ++ (t' ++ [z]))) := by
      simp [dataLine, midCols]
    rw [hshape, List.dropWhile_cons]
    simp [ha]
  · have hshape2 : dataLine (a :: w', t' ++ [z]) = ((a :: w') ++ (midCols ++ t')) ++ [z] := by
      simp [dataLine, midCols]
    rw [hshape2, List.reverse_concat', List.dropWhile_cons]
    simp [hz]

/-- `startsWith` stays false across a whitespace character when the probe
contains no whitespace. -/
theorem startsWith_append_ws (pre : Line) :
    ∀ (w : Line) (c : Char) (rest : Line),
      (∀ a ∈ pre, isWs a = false) → isWs c = true → startsWith pre w = false →
      startsWith pre (w ++ c :: rest) = false := by
  induction pre with
  | nil => intro w c rest _ _ hw; simp [startsWith] at hw
  | cons p ps ih =>
    intro w c rest hpre hc hw
    cases w with
    | nil =>
      have hp : isWs p = false := hpre p (List.mem_cons_self p ps)
      have hpc : p ≠ c := fun h => by rw [h, hc] at hp; exact Bool.noConfusion hp
      simp [startsWith, hpc]
    | cons a as =>
      by_cases hpa : p = a
      · subst hpa
        have hw' : startsWith ps as = false := by simpa [startsWith] using hw
        have hrec := ih as c rest (fun x hx => hpre x (List.mem_cons_of_mem _ hx)) hc hw'
        simpa [startsWith] using hrec
      · simp [startsWith, hpa]

/-- Processing one written data line appends exactly its (word, tag) pair to
the sentence accumulator. -/
theorem read_fold_dataLine (p : Tok × Tag) (hw : goodTok p.1) (ht : goodLabel p.2)
    (ls : List Line) (out : List Sentence) (acc : Sentence) :
    read_fold (dataLine p :: ls) out acc = read_fold ls out (acc ++ [p]) := by
  obtain ⟨w, t⟩ := p
  obtain ⟨hw1, hw2, hw3⟩ := hw
  obtain ⟨ht1, ht2⟩ := ht
  have hstrip : stripLine (dataLine (w, t)) = dataLine (w, t) :=
    stripLine_dataLine w t hw1 hw2 ht1 ht2
  have hmk : ∀ a ∈ docstartMarker, isWs a = false := by decide
  have hsw : startsWith docstartMarker (dataLine (w, t)) = false := by
    rw [dataLine_decomp]
    exact startsWith_append_ws _ w ' ' _ hmk (by decide) hw3
  have hsp : splitWs (dataLine (w, t)) = [w, ['-', 'X', '-'], ['_'], t] := by
    rw [dataLine_decomp, splitWs_word_space w _ hw1 hw2,
      splitWs_word_space ['-', 'X', '-'] _ (by decide) (by decide),
      splitWs_word_space ['_'] _ (by decide) (by decide),
      splitWs_word_only t ht1 ht2]
  have hne : (dataLine (w, t)).isEmpty = false := by
    obtain ⟨a, w', rfl⟩ := List.exists_cons_of_ne_nil hw1
    rfl
  simp only [read_fold, hstrip, hsw, hne, Bool.or_self, Bool.false_or, Bool.false_eq_true,
    if_false, hsp]
  rfl

/-- Processing a written sentence block flushes the accumulated pairs as one
parsed sentence. -/
theorem read_fold_block (s : Sentence) (hgood : ∀ p ∈ s, goodTok p.1 ∧ goodLabel p.2) :
    ∀ (ls : List Line) (out : List Sentence) (acc : Sentence),
      read_fold (s.map dataLine ++ [] :: ls) out acc =
        read_fold ls (if acc ++ s = [] then out else out ++ [acc ++ s]) [] := by
  induction s with
  | nil =>
    intro ls out acc
    simp only [List.map_nil, List.nil_append, read_fold, List.append_nil]
    rfl
  | cons p ps ih =>
    intro ls out acc
    have hp := hgood p (List.mem_cons_self p ps)
    rw [List.map_cons, List.cons_append,
      read_fold_dataLine p hp.1 hp.2,
      ih (fun q hq => hgood q (List.mem_cons_of_mem p hq))]
    have hap : (acc ++ [p]) ++ ps = acc ++ p :: ps := by
      simp
    rw [hap]

/-- Processing the whole written body appends all the sentences. -/
theorem read_fold_body (sents : List Sentence) (h : ∀ s ∈ sents, goodSentence s) :
    ∀ out, read_fold (sents.flatMap (fun s => s.map dataLine ++ [[]])) out [] =
      out ++ sents := by
  induction sents with
  | nil => intro out; simp [read_fold]
  | cons s ss ih =>
    intro out
    have hs := h s (List.mem_cons_self s ss)
    have hsplit : (s.map dataLine ++ [[]]) ++ ss.flatMap (fun u => u.map dataLine ++ [[]])
        = s.map dataLine ++ [] :: ss.flatMap (fun u => u.map dataLine ++ [[]]) := by
      simp
    rw [List.flatMap_cons, hsplit, read_fold_block s hs.2, List.nil_append, if_neg hs.1,
      ih (fun q hq => h q (List.mem_cons_of_mem s hq)) (out ++ [s])]
    simp

/-- Claim C7 counterexample: the claim constrains only the tokens, but a label
containing whitespace already breaks the round trip — the written line
`w -X- _ B L` re-parses with label `L`. -/
theorem round_trip_counterexample :
    read_conll (write_conll [[(['w'], ['B', ' ', 'L'])]]) ≠
      [[(['w'], ['B', ' ', 'L'])]] := by
  decide

/-- Claim C7 (amended): for sentences whose tokens AND labels are non-empty
and whitespace-free, and whose tokens do not start with the document-boundary
marker, serializing with `write_conll` and re-parsing with `read_conll`
restores exactly the same sentences. -/
theorem conll_round_trip (sents : List Sentence) (h : ∀ s ∈ sents, goodSentence s) :
    read_conll (write_conll sents) = sents := by
  unfold read_conll write_conll
  have h1 : stripLine headerLine = headerLine := by decide
  have h2 : startsWith docstartMarker headerLine = true := by decide
  simp only [read_fold, h1, h2, Bool.true_or, if_true]
  have h3 : stripLine ([] : Line) = [] := rfl
  simp only [h3, List.isEmpty_nil, Bool.or_true, if_true]
  rw [read_fold_body sents h []]
  simp

/-- Witness for C7: the example corpus round-trips through the file format. -/
theorem conll_round_trip_witness :
    (∀ s ∈ [exS1, exS2], goodSentence s) ∧
    read_conll (write_conll [exS1, exS2]) = [exS1, exS2] :=
  ⟨by decide, conll_round_trip [exS1, exS2] (by decide)⟩

/-- Claim C9: a line that survives the separator test and splits into exactly
one whitespace-delimited field parses, without failing, into a pair whose
token equals its label. -/
theorem single_field_line (l : Line) (x : Tok)
    (h1 : stripLine l ≠ []) (h2 : startsWith docstartMarker (stripLine l) = false)
    (h3 : splitWs (stripLine l) = [x]) :
    read_conll [l] = [[(x, x)]] := by
  have h4 : (stripLine l).isEmpty = false := by
    cases hsl : stripLine l with
    | nil => exact absurd hsl h1
    | cons a as => rfl
  unfold read_conll
  simp only [read_fold, h2, h4, Bool.or_self, Bool.false_eq_true, if_false, h3]
  rfl

/-- Witness for C9: the one-field line `B-PER` parses to a pair whose token
and label are both `B-PER`. -/
theorem single_field_line_witness :
    (stripLine (['B', '-', 'P', 'E', 'R'] : Line) ≠ [] ∧
     startsWith docstartMarker (stripLine ['B', '-', 'P', 'E', 'R']) = false ∧
     splitWs (stripLine ['B', '-', 'P', 'E', 'R']) = [['B', '-', 'P', 'E', 'R']]) ∧
    read_conll [['B', '-', 'P', 'E', 'R']] =
      [[(['B', '-', 'P', 'E', 'R'], ['B', '-', 'P', 'E', 'R'])]] :=
  ⟨⟨by decide, by decide, by decide⟩,
   single_field_line ['B', '-', 'P', 'E', 'R'] ['B', '-', 'P', 'E', 'R']
     (by decide) (by decide) (by decide)⟩

/-- Claim C8: on the spec's two-sentence example with targets
`B-PER = B-LOC = I-LOC = 1`, `balance_dataset` (with the default 50
iterations) returns both sentences in original order, and the score of that
returned selection is 0. -/
theorem end_to_end_example :
    balance_dataset exTargets 50 [exS1, exS2] = [exS1, exS2] ∧
    calculate_frequency_score exTargets
      (get_current_counts ([exS1, exS2].map get_sentence_tag_counts) [0, 1]) = 0 := by
  constructor
  · decide
  · decide

/-- Pointwise value of the dictionary-increment loop. -/
theorem dictAdd_apply (sc : List (Tag × Nat)) :
    ∀ (cc : Tag → Int) (t : Tag), dictAdd cc sc t = cc t + sumAt sc t := by
  induction sc with
  | nil => intro cc t; simp [dictAdd, sumAt]
  | cons p ps ih =>
    intro cc t
    show dictAdd (fun u => if u = p.1 then cc u + (p.2 : Int) else cc u) ps t = _
    rw [ih]
    show (if t = p.1 then cc t + (p.2 : Int) else cc t) + sumAt ps t = _
    simp only [sumAt]
    by_cases h : t = p.1
    · rw [if_pos h, if_pos h]
      omega
    · rw [if_neg h, if_neg h]
      omega

/-- Pointwise value of the dictionary-decrement loop. -/
theorem dictSub_apply (sc : List (Tag × Nat)) :
    ∀ (cc : Tag → Int) (t : Tag), dictSub cc sc t = cc t - sumAt sc t := by
  induction sc with
  | nil => intro cc t; simp [dictSub, sumAt]
  | cons p ps ih =>
    intro cc t
    show dictSub (fun u => if u = p.1 then cc u - (p.2 : Int) else cc u) ps t = _
    rw [ih]
    show (if t = p.1 then cc t - (p.2 : Int) else cc t) - sumAt ps t = _
    simp only [sumAt]
    by_cases h : t = p.1
    · rw [if_pos h, if_pos h]
      omega
    · rw [if_neg h, if_neg h]
      omega

/-- Pointwise value of the aggregate-rebuilding fold, with general seed. -/
theorem get_current_counts_go (stc : List (List (Tag × Nat))) :
    ∀ (sel : List Nat) (cc : Tag → Int) (t : Tag),
      (sel.foldl (fun f i => dictAdd f (stc.getD i [])) cc) t = cc t + selSum stc sel t := by
  intro sel
  induction sel with
  | nil => intro cc t; simp [selSum]
  | cons i js ih =>
    intro cc t
    show (js.foldl (fun f i => dictAdd f (stc.getD i [])) (dictAdd cc (stc.getD i []))) t = _
    rw [ih, dictAdd_apply]
    simp only [selSum]
    omega

/-- `get_current_counts` reconstructs exactly the selection's aggregate. -/
theorem gcc_eq (stc : List (List (Tag × Nat))) (sel : List Nat) (t : Tag) :
    get_current_counts stc sel t = selSum stc sel t := by
  have h := get_current_counts_go stc sel (fun _ => 0) t
  simpa [get_current_counts] using h

/-- The aggregate as a mapped sum, for permutation reasoning. -/
theorem selSum_eq_sum_map (stc : List (List (Tag × Nat))) :
    ∀ (sel : List Nat) (t : Tag),
      selSum stc sel t = (sel.map (fun i => sumAt (stc.getD i []) t)).sum := by
  intro sel
  induction sel with
  | nil => intro t; simp [selSum]
  | cons i js ih => intro t; simp [selSum, ih]

/-- The aggregate is invariant under permutation of the selection. -/
theorem selSum_perm (stc : List (List (Tag × Nat))) {l l' : List Nat}
    (h : l.Perm l') (t : Tag) : selSum stc l t = selSum stc l' t := by
  rw [selSum_eq_sum_map, selSum_eq_sum_map]
  exact (h.map _).sum_eq

/-- Erasing a selected index subtracts exactly its contribution. -/
theorem selSum_erase (stc : List (List (Tag × Nat))) (sel : List Nat) (idx : Nat)
    (h : idx ∈ sel) (t : Tag) :
    selSum stc sel t = sumAt (stc.getD idx []) t + selSum stc (sel.erase idx) t := by
  have hp : sel.Perm (idx :: sel.erase idx) := List.perm_cons_erase h
  rw [selSum_perm stc hp t]
  simp [selSum]

/-- Membership in an ordered-set insertion. -/
theorem mem_insertSel {a x : Nat} : ∀ {l : List Nat}, a ∈ insertSel x l ↔ a = x ∨ a ∈ l := by
  intro l
  induction l with
  | nil => simp [insertSel]
  | cons y ys ih =>
    by_cases h1 : x < y
    · have hx : insertSel x (y :: ys) = x :: y :: ys := by
        simp [insertSel, h1]
      rw [hx]
      simp only [List.mem_cons]
    · by_cases h2 : x = y
      · subst h2
        have hx : insertSel x (x :: ys) = x :: ys := by
          simp [insertSel, h1]
        rw [hx]
        simp only [List.mem_cons]
        tauto
      · have hx : insertSel x (y :: ys) = y :: insertSel x ys := by
          simp [insertSel, h1, h2]
        rw [hx]
        simp only [List.mem_cons, ih]
        tauto

/-- Inserting a fresh index is a permutation of consing it. -/
theorem insertSel_perm (x : Nat) : ∀ (l : List Nat), x ∉ l → (insertSel x l).Perm (x :: l) := by
  intro l
  induction l with
  | nil => intro _; simp [insertSel]
  | cons y ys ih =>
    intro hx
    have hxy : x ≠ y := fun h => hx (h ▸ List.mem_cons_self y ys)
    by_cases h1 : x < y
    · simp [insertSel, h1]
    · simp only [insertSel, if_neg h1, if_neg hxy]
      have hrec := ih (fun hm => hx (List.mem_cons_of_mem y hm))
      exact (hrec.cons y).trans (List.Perm.swap x y ys)

/-- Ordered-set insertion preserves strict sortedness. -/
theorem pairwise_insertSel (x : Nat) : ∀ (l : List Nat), List.Pairwise (· < ·) l →
    List.Pairwise (· < ·) (insertSel x l) := by
  intro l
  induction l with
  | nil => intro _; simp [insertSel]
  | cons y ys ih =>
    intro hp
    rw [List.pairwise_cons] at hp
    obtain ⟨hy, hys⟩ := hp
    by_cases h1 : x < y
    · have hx : insertSel x (y :: ys) = x :: y :: ys := by
        simp [insertSel, h1]
      rw [hx, List.pairwise_cons]
      refine ⟨fun z hz => ?_, ?_⟩
      · rcases List.mem_cons.mp hz with rfl | hz'
        · exact h1
        · exact lt_trans h1 (hy z hz')
      · rw [List.pairwise_cons]
        exact ⟨hy, hys⟩
    · by_cases h2 : x = y
      · have hx : insertSel x (y :: ys) = y :: ys := by
          subst h2
          simp [insertSel, h1]
        rw [hx, List.pairwise_cons]
        exact ⟨hy, hys⟩
      · have hx : insertSel x (y :: ys) = y :: insertSel x ys := by
          simp [insertSel, h1, h2]
        rw [hx, List.pairwise_cons]
        refine ⟨fun z hz => ?_, ih hys⟩
        rcases mem_insertSel.mp hz with rfl | hz'
        · omega
        · exact hy z hz'

/-- The removal-pass fold keeps the aggregate equal to the selection's sum
and keeps the selection sorted, provided the snapshot is duplicate-free and
within the selection. -/
theorem remove_fold_inv (tgt : List (Tag × Int)) (stc : List (List (Tag × Nat))) :
    ∀ (snap : List Nat) (p : PassState), snap.Nodup → (∀ i ∈ snap, i ∈ p.selected) →
      (∀ t, p.counts t = selSum stc p.selected t) → List.Pairwise (· < ·) p.selected →
      (∀ t, (snap.foldl (remove_step tgt stc) p).counts t
          = selSum stc (snap.foldl (remove_step tgt stc) p).selected t) ∧
      List.Pairwise (· < ·) (snap.foldl (remove_step tgt stc) p).selected := by
  intro snap
  induction snap with
  | nil => intro p _ _ hc hs; exact ⟨hc, hs⟩
  | cons idx rest ih =>
    intro p hnd hsub hc hs
    rw [List.foldl_cons]
    have hmem : idx ∈ p.selected := hsub idx (List.mem_cons_self idx rest)
    by_cases hrm : should_remove_sentence tgt (stc.getD idx []) p.counts = true
    · have hstep : remove_step tgt stc p idx =
          { selected := p.selected.erase idx, counts := dictSub p.counts (stc.getD idx []),
            improved := true } := by
        simp only [remove_step]
        rw [if_pos hrm]
      rw [hstep]
      apply ih
      · exact (List.nodup_cons.mp hnd).2
      · intro i hi
        have hne : i ≠ idx := fun h => (List.nodup_cons.mp hnd).1 (h ▸ hi)
        show i ∈ p.selected.erase idx
        exact (List.mem_erase_of_ne hne).mpr (hsub i (List.mem_cons_of_mem idx hi))
      · intro t
        show dictSub p.counts (stc.getD idx []) t = selSum stc (p.selected.erase idx) t
        rw [dictSub_apply, hc t, selSum_erase stc p.selected idx hmem t]
        omega
      · exact hs.sublist (List.erase_sublist idx p.selected)
    · have hstep : remove_step tgt stc p idx = p := by
        simp only [remove_step]
        rw [if_neg hrm]
      rw [hstep]
      exact ih p (List.nodup_cons.mp hnd).2 (fun i hi => hsub i (List.mem_cons_of_mem idx hi))
        hc hs

/-- The addition-pass fold keeps the aggregate equal to the selection's sum
and keeps the selection sorted, provided the candidates are duplicate-free
and outside the selection. -/
theorem add_fold_inv (tgt : List (Tag × Int)) (stc : List (List (Tag × Nat))) :
    ∀ (cands : List Nat) (p : PassState), cands.Nodup → (∀ i ∈ cands, i ∉ p.selected) →
      (∀ t, p.counts t = selSum stc p.selected t) → List.Pairwise (· < ·) p.selected →
      (∀ t, (cands.foldl (add_step tgt stc) p).counts t
          = selSum stc (cands.foldl (add_step tgt stc) p).selected t) ∧
      List.Pairwise (· < ·) (cands.foldl (add_step tgt stc) p).selected := by
  intro cands
  induction cands with
  | nil => intro p _ _ hc hs; exact ⟨hc, hs⟩
  | cons idx rest ih =>
    intro p hnd hsub hc hs
    rw [List.foldl_cons]
    have hmem : idx ∉ p.selected := hsub idx (List.mem_cons_self idx rest)
    by_cases hca : can_add_sentence tgt (stc.getD idx []) p.counts = true
    · have hstep : add_step tgt stc p idx =
          { selected := insertSel idx p.selected, counts := dictAdd p.counts (stc.getD idx []),
            improved := true } := by
        simp only [add_step]
        rw [if_pos hca]
      rw [hstep]
      apply ih
      · exact (List.nodup_cons.mp hnd).2
      · intro i hi
        have hne : i ≠ idx := fun h => (List.nodup_cons.mp hnd).1 (h ▸ hi)
        show i ∉ insertSel idx p.selected
        intro hmem2
        rcases mem_insertSel.mp hmem2 with h | h
        · exact hne h
        · exact hsub i (List.mem_cons_of_mem idx hi) h
      · intro t
        show dictAdd p.counts (stc.getD idx []) t = selSum stc (insertSel idx p.selected) t
        rw [dictAdd_apply, hc t, selSum_perm stc (insertSel_perm idx p.selected hmem) t]
        simp only [selSum]
        omega
      · exact pairwise_insertSel idx p.selected hs
    · have hstep : add_step tgt stc p idx = p := by
        simp only [add_step]
        rw [if_neg hca]
      rw [hstep]
      exact ih p (List.nodup_cons.mp hnd).2 (fun i hi => hsub i (List.mem_cons_of_mem idx hi))
        hc hs

/-- Invariant preservation for a whole removal pass. -/
theorem removal_pass_inv (tgt : List (Tag × Int)) (stc : List (List (Tag × Nat)))
    (p : PassState) (hc : ∀ t, p.counts t = selSum stc p.selected t)
    (hs : List.Pairwise (· < ·) p.selected) :
    (∀ t, (removal_pass tgt stc p).counts t = selSum stc (removal_pass tgt stc p).selected t) ∧
    List.Pairwise (· < ·) (removal_pass tgt stc p).selected := by
  unfold removal_pass
  exact remove_fold_inv tgt stc p.selected p (hs.imp (fun hlt => Nat.ne_of_lt hlt))
    (fun i hi => hi) hc hs

/-- Invariant preservation for a whole addition pass. -/
theorem addition_pass_inv (tgt : List (Tag × Int)) (stc : List (List (Tag × Nat)))
    (n : Nat) (p : PassState) (hc : ∀ t, p.counts t = selSum stc p.selected t)
    (hs : List.Pairwise (· < ·) p.selected) :
    (∀ t, (addition_pass tgt stc n p).counts t
        = selSum stc (addition_pass tgt stc n p).selected t) ∧
    List.Pairwise (· < ·) (addition_pass tgt stc n p).selected := by
  unfold addition_pass
  exact add_fold_inv tgt stc _ p ((List.nodup_range n).filter _)
    (fun i hi => of_decide_eq_true (List.mem_filter.mp hi).2) hc hs

/-- The removal-pass fold preserves sortedness unconditionally. -/
theorem remove_fold_pw (tgt : List (Tag × Int)) (stc : List (List (Tag × Nat))) :
    ∀ (snap : List Nat) (p : PassState), List.Pairwise (· < ·) p.selected →
      List.Pairwise (· < ·) ((snap.foldl (remove_step tgt stc) p).selected) := by
  intro snap
  induction snap with
  | nil => intro p hs; exact hs
  | cons idx rest ih =>
    intro p hs
    rw [List.foldl_cons]
    apply ih
    by_cases hrm : should_remove_sentence tgt (stc.getD idx []) p.counts = true
    · have hstep : remove_step tgt stc p idx =
          { selected := p.selected.erase idx, counts := dictSub p.counts (stc.getD idx []),
            improved := true } := by
        simp only [remove_step]
        rw [if_pos hrm]
      rw [hstep]
      exact hs.sublist (List.erase_sublist idx p.selected)
    · have hstep : remove_step tgt stc p idx = p := by
        simp only [remove_step]
        rw [if_neg hrm]
      rw [hstep]
      exact hs

/-- The addition-pass fold preserves sortedness unconditionally. -/
theorem add_fold_pw (tgt : List (Tag × Int)) (stc : List (List (Tag × Nat))) :
    ∀ (cands : List Nat) (p : PassState), List.Pairwise (· < ·) p.selected →
      List.Pairwise (· < ·) ((cands.foldl (add_step tgt stc) p).selected) := by
  intro cands
  induction cands with
  | nil => intro p hs; exact hs
  | cons idx rest ih =>
    intro p hs
    rw [List.foldl_cons]
    apply ih
    by_cases hca : can_add_sentence tgt (stc.getD idx []) p.counts = true
    · have hstep : add_step tgt stc p idx =
          { selected := insertSel idx p.selected, counts := dictAdd p.counts (stc.getD idx []),
            improved := true } := by
        simp only [add_step]
        rw [if_pos hca]
      rw [hstep]
      exact pairwise_insertSel idx p.selected hs
    · have hstep : add_step tgt stc p idx = p := by
        simp only [add_step]
        rw [if_neg hca]
      rw [hstep]
      exact hs

/-- Both passes together preserve sortedness. -/
theorem pass2_pw (tgt : List (Tag × Int)) (stc : List (List (Tag × Nat))) (n : Nat)
    (st : BState) (hs : List.Pairwise (· < ·) st.selected) :
    List.Pairwise (· < ·) (pass2 tgt stc n st).selected := by
  unfold pass2 addition_pass removal_pass
  apply add_fold_pw
  apply remove_fold_pw
  exact hs

/-- Both passes together preserve the aggregate invariant and sortedness. -/
theorem pass2_inv (tgt : List (Tag × Int)) (stc : List (List (Tag × Nat))) (n : Nat)
    (st : BState) (hc : ∀ t, st.counts t = selSum stc st.selected t)
    (hs : List.Pairwise (· < ·) st.selected) :
    (∀ t, (pass2 tgt stc n st).counts t = selSum stc (pass2 tgt stc n st).selected t) ∧
    List.Pairwise (· < ·) (pass2 tgt stc n st).selected := by
  have h1 := removal_pass_inv tgt stc ⟨st.selected, st.counts, false⟩ hc hs
  exact addition_pass_inv tgt stc n _ h1.1 h1.2

/-- The selection after one iteration is the post-pass selection. -/
theorem iterate_once_sel (tgt : List (Tag × Int)) (stc : List (List (Tag × Nat)))
    (n : Nat) (st : BState) :
    (iterate_once tgt stc n st).1.selected = (pass2 tgt stc n st).selected := rfl

/-- The counts after one iteration are the post-pass counts. -/
theorem iterate_once_cnt (tgt : List (Tag × Int)) (stc : List (List (Tag × Nat)))
    (n : Nat) (st : BState) :
    (iterate_once tgt stc n st).1.counts = (pass2 tgt stc n st).counts := rfl

/-- The improved flag after one iteration is the post-pass flag. -/
theorem iterate_once_imp (tgt : List (Tag × Int)) (stc : List (List (Tag × Nat)))
    (n : Nat) (st : BState) :
    (iterate_once tgt stc n st).2 = (pass2 tgt stc n st).improved := rfl

/-- The best selection after one iteration: updated exactly on improvement. -/
theorem iterate_once_bsel (tgt : List (Tag × Int)) (stc : List (List (Tag × Nat)))
    (n : Nat) (st : BState) :
    (iterate_once tgt stc n st).1.best_selected =
      (if betterThan (calculate_frequency_score tgt (pass2 tgt stc n st).counts) st.best_score
       then (pass2 tgt stc n st).selected else st.best_selected) := rfl

/-- The best score after one iteration: updated exactly on improvement. -/
theorem iterate_once_bscore (tgt : List (Tag × Int)) (stc : List (List (Tag × Nat)))
    (n : Nat) (st : BState) :
    (iterate_once tgt stc n st).1.best_score =
      (if betterThan (calculate_frequency_score tgt (pass2 tgt stc n st).counts) st.best_score
       then some (calculate_frequency_score tgt (pass2 tgt stc n st).counts)
       else st.best_score) := rfl

/-- One iteration preserves the aggregate invariant and sortedness. -/
theorem iterate_once_inv (tgt : List (Tag × Int)) (stc : List (List (Tag × Nat)))
    (n : Nat) (st : BState) (hc : ∀ t, st.counts t = selSum stc st.selected t)
    (hs : List.Pairwise (· < ·) st.selected) :
    (∀ t, (iterate_once tgt stc n st).1.counts t
        = selSum stc (iterate_once tgt stc n st).1.selected t) ∧
    List.Pairwise (· < ·) (iterate_once tgt stc n st).1.selected := by
  simp only [iterate_once_cnt, iterate_once_sel]
  exact pass2_inv tgt stc n st hc hs

/-- The loop preserves the aggregate invariant and sortedness. -/
theorem balance_loop_inv (tgt : List (Tag × Int)) (stc : List (List (Tag × Nat))) (n : Nat) :
    ∀ (k : Nat) (st : BState),
      (∀ t, st.counts t = selSum stc st.selected t) → List.Pairwise (· < ·) st.selected →
      (∀ t, ((balance_loop tgt stc n k st).1).counts t
          = selSum stc ((balance_loop tgt stc n k st).1).selected t) ∧
      List.Pairwise (· < ·) ((balance_loop tgt stc n k st).1).selected := by
  intro k
  induction k with
  | zero => intro st hc hs; exact ⟨hc, hs⟩
  | succ k ih =>
    intro st hc hs
    have hstep := iterate_once_inv tgt stc n st hc hs
    simp only [balance_loop]
    split
    · exact ih _ hstep.1 hstep.2
    · exact hstep

/-- `bestScoreLE` is reflexive. -/
theorem bestScoreLE_refl (a : Option Int) : bestScoreLE a a := by
  cases a with
  | none => exact trivial
  | some x => exact le_refl x

/-- `bestScoreLE` is transitive. -/
theorem bestScoreLE_trans {a b c : Option Int} (h1 : bestScoreLE a b)
    (h2 : bestScoreLE b c) : bestScoreLE a c := by
  cases a with
  | none => exact trivial
  | some x =>
    cases b with
    | none => exact h1.elim
    | some y =>
      cases c with
      | none => exact h2.elim
      | some z => exact le_trans h1 h2

/-- The best-tracking update never decreases the best score. -/
theorem bestScoreLE_update (b : Option Int) (s : Int) :
    bestScoreLE b (if betterThan s b then some s else b) := by
  by_cases h : betterThan s b = true
  · rw [if_pos h]
    cases b with
    | none => exact trivial
    | some x =>
      have hx : x < s := of_decide_eq_true (by simpa [betterThan] using h)
      exact le_of_lt hx
  · rw [if_neg h]
    exact bestScoreLE_refl b

/-- One iteration never decreases the best score. -/
theorem iterate_once_best_mono (tgt : List (Tag × Int)) (stc : List (List (Tag × Nat)))
    (n : Nat) (st : BState) :
    bestScoreLE st.best_score (iterate_once tgt stc n st).1.best_score := by
  rw [iterate_once_bscore]
  exact bestScoreLE_update st.best_score _

/-- The loop never decreases the best score. -/
theorem balance_loop_mono (tgt : List (Tag × Int)) (stc : List (List (Tag × Nat))) (n : Nat) :
    ∀ (k : Nat) (st : BState),
      bestScoreLE st.best_score ((balance_loop tgt stc n k st).1).best_score := by
  intro k
  induction k with
  | zero => intro st; exact bestScoreLE_refl _
  | succ k ih =>
    intro st
    simp only [balance_loop]
    split
    · exact bestScoreLE_trans (iterate_once_best_mono tgt stc n st) (ih _)
    · exact iterate_once_best_mono tgt stc n st

/-- The score only depends on the pointwise values of the counts. -/
theorem freq_score_congr (tgt : List (Tag × Int)) (cc1 cc2 : Tag → Int)
    (h : ∀ t, cc1 t = cc2 t) :
    calculate_frequency_score tgt cc1 = calculate_frequency_score tgt cc2 :=
  congrArg (calculate_frequency_score tgt) (funext h)

/-- One iteration preserves the best-tracking invariant. -/
theorem iterate_once_best_inv (tgt : List (Tag × Int)) (stc : List (List (Tag × Nat)))
    (n : Nat) (st : BState) (hc : ∀ t, st.counts t = selSum stc st.selected t)
    (hs : List.Pairwise (· < ·) st.selected) (hb : BestInv tgt stc st) :
    BestInv tgt stc (iterate_once tgt stc n st).1 := by
  intro s hsome
  rw [iterate_once_bscore] at hsome
  rw [iterate_once_bsel]
  by_cases h : betterThan (calculate_frequency_score tgt (pass2 tgt stc n st).counts)
      st.best_score = true
  · rw [if_pos h] at hsome
    rw [if_pos h]
    injection hsome with hsome
    rw [← hsome]
    have hpost := pass2_inv tgt stc n st hc hs
    apply freq_score_congr
    intro t
    rw [gcc_eq]
    exact (hpost.1 t).symm
  · rw [if_neg h] at hsome
    rw [if_neg h]
    exact hb s hsome

/-- The loop preserves the best-tracking invariant. -/
theorem balance_loop_best_inv (tgt : List (Tag × Int)) (stc : List (List (Tag × Nat)))
    (n : Nat) : ∀ (k : Nat) (st : BState),
      (∀ t, st.counts t = selSum stc st.selected t) → List.Pairwise (· < ·) st.selected →
      BestInv tgt stc st → BestInv tgt stc ((balance_loop tgt stc n k st).1) := by
  intro k
  induction k with
  | zero => intro st _ _ hb; exact hb
  | succ k ih =>
    intro st hc hs hb
    have hinv := iterate_once_inv tgt stc n st hc hs
    have hbest := iterate_once_best_inv tgt stc n st hc hs hb
    simp only [balance_loop]
    split
    · exact ih _ hinv.1 hinv.2 hbest
    · exact hbest

/-- The maintained-counts invariant in its two equivalent readings. -/
theorem countInv_iff (stc : List (List (Tag × Nat))) (st : BState) :
    CountInv stc st ↔ ∀ t, st.counts t = selSum stc st.selected t := by
  constructor
  · intro h t
    rw [h t, gcc_eq]
  · intro h t
    rw [h t, ← gcc_eq]

/-- Claim C3: the count invariant.  The incrementally maintained aggregate
equals the one rebuilt from scratch by `get_current_counts` over the current
selection: it holds in the initial state, is preserved by every iteration,
and therefore holds at every iteration boundary reached by the loop. -/
theorem count_invariant (tgt : List (Tag × Int)) (stc : List (List (Tag × Nat))) (n : Nat) :
    (CountInv stc (initState stc n) ∧ SortedSel (initState stc n)) ∧
    (∀ st : BState, CountInv stc st → SortedSel st →
      CountInv stc (iterate_once tgt stc n st).1 ∧ SortedSel (iterate_once tgt stc n st).1) ∧
    (∀ (k : Nat) (st : BState), CountInv stc st → SortedSel st →
      CountInv stc ((balance_loop tgt stc n k st).1) ∧
      SortedSel ((balance_loop tgt stc n k st).1)) := by
  refine ⟨⟨fun t => rfl, List.pairwise_lt_range n⟩, ?_, ?_⟩
  · intro st hc hs
    have h := iterate_once_inv tgt stc n st ((countInv_iff stc st).mp hc) hs
    exact ⟨(countInv_iff stc _).mpr h.1, h.2⟩
  · intro k st hc hs
    have h := balance_loop_inv tgt stc n k st ((countInv_iff stc st).mp hc) hs
    exact ⟨(countInv_iff stc _).mpr h.1, h.2⟩

/-- Witness for C3: the invariant holds after running one iteration of the
loop on the example corpus, starting from the initial state. -/
theorem count_invariant_witness :
    CountInv ([exS1, exS2].map get_sentence_tag_counts)
      ((balance_loop exTargets ([exS1, exS2].map get_sentence_tag_counts) 2 1
        (initState ([exS1, exS2].map get_sentence_tag_counts) 2)).1) ∧
    SortedSel ((balance_loop exTargets ([exS1, exS2].map get_sentence_tag_counts) 2 1
        (initState ([exS1, exS2].map get_sentence_tag_counts) 2)).1) :=
  (count_invariant exTargets ([exS1, exS2].map get_sentence_tag_counts) 2).2.2 1
    (initState ([exS1, exS2].map get_sentence_tag_counts) 2)
    (count_invariant exTargets ([exS1, exS2].map get_sentence_tag_counts) 2).1.1
    (count_invariant exTargets ([exS1, exS2].map get_sentence_tag_counts) 2).1.2

/-- Claim C4: the best score is non-decreasing across iterations; whenever the
final state records a best score, it equals the score of the recorded best
selection (computed from the counts reconstructed over it); and the returned
sentence list is exactly the best selection, sorted ascending. -/
theorem best_score_tracking (tgt : List (Tag × Int)) (sents : List Sentence) (k : Nat) :
    (∀ (j : Nat) (st : BState),
      bestScoreLE st.best_score
        ((balance_loop tgt (sents.map get_sentence_tag_counts) sents.length j st).1).best_score) ∧
    (∀ s : Int,
      ((balance_loop tgt (sents.map get_sentence_tag_counts) sents.length k
          (initState (sents.map get_sentence_tag_counts) sents.length)).1).best_score = some s →
      calculate_frequency_score tgt
        (get_current_counts (sents.map get_sentence_tag_counts)
          ((balance_loop tgt (sents.map get_sentence_tag_counts) sents.length k
            (initState (sents.map get_sentence_tag_counts) sents.length)).1).best_selected)
        = s) ∧
    balance_dataset tgt k sents =
      (sortAsc ((balance_loop tgt (sents.map get_sentence_tag_counts) sents.length k
          (initState (sents.map get_sentence_tag_counts) sents.length)).1).best_selected).map
        (fun i => sents.getD i []) := by
  refine ⟨fun j st => balance_loop_mono tgt _ _ j st, ?_, rfl⟩
  intro s hsome
  have hb := balance_loop_best_inv tgt (sents.map get_sentence_tag_counts) sents.length k
    (initState (sents.map get_sentence_tag_counts) sents.length)
    (fun t => gcc_eq _ _ t) (List.pairwise_lt_range _) (fun u h => Option.noConfusion h)
  exact hb s hsome

/-- Witness for C4: on the example corpus the final best score is 0 and the
recorded best selection scores 0. -/
theorem best_score_tracking_witness :
    ((balance_loop exTargets ([exS1, exS2].map get_sentence_tag_counts)
        ([exS1, exS2] : List Sentence).length 50
        (initState ([exS1, exS2].map get_sentence_tag_counts)
          ([exS1, exS2] : List Sentence).length)).1).best_score = some 0 ∧
    calculate_frequency_score exTargets
      (get_current_counts ([exS1, exS2].map get_sentence_tag_counts)
        ((balance_loop exTargets ([exS1, exS2].map get_sentence_tag_counts)
            ([exS1, exS2] : List Sentence).length 50
          (initState ([exS1, exS2].map get_sentence_tag_counts)
            ([exS1, exS2] : List Sentence).length)).1).best_selected) = 0 :=
  ⟨by decide, (best_score_tracking exTargets [exS1, exS2] 50).2.1 0 (by decide)⟩

/-- Claim C6: the evaluation order is fixed and ascending — the initial
selection is ascending, every iteration keeps it ascending (the removal pass
iterates exactly that list), the addition-pass candidate list is ascending —
and the whole pipeline is deterministic: identical inputs give bitwise
identical serialized output. -/
theorem determinism_and_order (tgt : List (Tag × Int)) (n : Nat) :
    (∀ stc : List (List (Tag × Nat)), SortedSel (initState stc n)) ∧
    (∀ (stc : List (List (Tag × Nat))) (st : BState), SortedSel st →
      SortedSel (iterate_once tgt stc n st).1) ∧
    (∀ p : PassState,
      List.Pairwise (· < ·) ((List.range n).filter (fun i => decide (i ∉ p.selected)))) ∧
    (∀ (k : Nat) (sents₁ sents₂ : List Sentence), sents₁ = sents₂ →
      write_conll (balance_dataset tgt k sents₁) = write_conll (balance_dataset tgt k sents₂)) := by
  refine ⟨fun stc => List.pairwise_lt_range n, ?_, ?_, ?_⟩
  · intro stc st hs
    show List.Pairwise (· < ·) (iterate_once tgt stc n st).1.selected
    rw [iterate_once_sel]
    exact pass2_pw tgt stc n st hs
  · intro p
    exact (List.pairwise_lt_range n).sublist (List.filter_sublist _)
  · intro k sents₁ sents₂ h
    rw [h]

/-- Witness for C6: two runs on the same concrete corpus serialize to the same
lines. -/
theorem determinism_witness :
    (([exS1] : List Sentence) = [exS1]) ∧
    write_conll (balance_dataset exTargets 1 [exS1]) =
      write_conll (balance_dataset exTargets 1 [exS1]) :=
  ⟨rfl, (determinism_and_order exTargets 1).2.2.2 1 [exS1] [exS1] rfl⟩

/-- A sentence whose counts touch no target label always passes the removal
check (no label can veto). -/
theorem should_remove_of_no_target (tgt : List (Tag × Int)) (sc : List (Tag × Nat))
    (cc : Tag → Int) (h : ∀ p ∈ sc, lookupTag tgt p.1 = none) :
    should_remove_sentence tgt sc cc = true := by
  unfold should_remove_sentence
  rw [List.all_eq_true]
  intro p hp
  show remove_label_ok cc p (lookupTag tgt p.1) = true
  rw [h p hp]
  rfl

/-- A sentence whose counts touch no target label always passes the addition
check. -/
theorem can_add_of_no_target (tgt : List (Tag × Int)) (sc : List (Tag × Nat))
    (cc : Tag → Int) (h : ∀ p ∈ sc, lookupTag tgt p.1 = none) :
    can_add_sentence tgt sc cc = true := by
  unfold can_add_sentence
  rw [List.all_eq_true]
  intro p hp
  show add_label_ok cc p (lookupTag tgt p.1) = true
  rw [h p hp]
  rfl

/-- Indexing the precomputed per-sentence counts. -/
theorem getD_map_counts (sents : List Sentence) (idx : Nat) (h : idx < sents.length) :
    (sents.map get_sentence_tag_counts).getD idx [] =
      get_sentence_tag_counts (sents.getD idx []) := by
  rw [List.getD_eq_getElem?_getD, List.getD_eq_getElem?_getD,
    List.getElem?_map get_sentence_tag_counts sents idx, List.getElem?_eq_getElem h]
  rfl

/-- The removal-pass fold drops an always-removable index: if it is still in
the snapshot it gets erased when processed, and it is never re-added. -/
theorem remove_fold_not_mem (tgt : List (Tag × Int)) (stc : List (List (Tag × Nat)))
    (idx : Nat) (hsc : ∀ cc : Tag → Int, should_remove_sentence tgt (stc.getD idx []) cc = true) :
    ∀ (snap : List Nat) (p : PassState), snap.Nodup → p.selected.Nodup →
      (idx ∈ snap ∨ idx ∉ p.selected) →
      idx ∉ ((snap.foldl (remove_step tgt stc) p).selected) := by
  intro snap
  induction snap with
  | nil =>
    intro p _ _ h
    rcases h with h | h
    · exact absurd h (List.not_mem_nil idx)
    · exact h
  | cons j rest ih =>
    intro p hnd hpnd h
    rw [List.foldl_cons]
    have hndr := (List.nodup_cons.mp hnd).2
    have hpnd' : (remove_step tgt stc p j).selected.Nodup := by
      by_cases hc : should_remove_sentence tgt (stc.getD j []) p.counts = true
      · have hstep : remove_step tgt stc p j =
            { selected := p.selected.erase j, counts := dictSub p.counts (stc.getD j []),
              improved := true } := by
          simp only [remove_step]
          rw [if_pos hc]
        rw [hstep]
        exact hpnd.erase j
      · have hstep : remove_step tgt stc p j = p := by
          simp only [remove_step]
          rw [if_neg hc]
        rw [hstep]
        exact hpnd
    apply ih (remove_step tgt stc p j) hndr hpnd'
    by_cases hji : j = idx
    · subst hji
      right
      have hstep : remove_step tgt stc p j =
          { selected := p.selected.erase j, counts := dictSub p.counts (stc.getD j []),
            improved := true } := by
        simp only [remove_step]
        rw [if_pos (hsc p.counts)]
      rw [hstep]
      show j ∉ p.selected.erase j
      intro hmem
      exact ((hpnd.mem_erase_iff).mp hmem).1 rfl
    · rcases h with h | h
      · rcases List.mem_cons.mp h with h2 | h2
        · exact absurd h2.symm hji
        · exact Or.inl h2
      · right
        by_cases hc : should_remove_sentence tgt (stc.getD j []) p.counts = true
        · have hstep : remove_step tgt stc p j =
              { selected := p.selected.erase j, counts := dictSub p.counts (stc.getD j []),
                improved := true } := by
            simp only [remove_step]
            rw [if_pos hc]
          rw [hstep]
          show idx ∉ p.selected.erase j
          intro hmem
          exact h (List.mem_of_mem_erase hmem)
        · have hstep : remove_step tgt stc p j = p := by
            simp only [remove_step]
            rw [if_neg hc]
          rw [hstep]
          exact h

/-- The addition-pass fold re-admits an always-addable candidate and marks the
iteration improved; once added, the index stays and the flag stays set. -/
theorem add_fold_mem_improved (tgt : List (Tag × Int)) (stc : List (List (Tag × Nat)))
    (idx : Nat) (hca : ∀ cc : Tag → Int, can_add_sentence tgt (stc.getD idx []) cc = true) :
    ∀ (cands : List Nat) (p : PassState),
      (idx ∈ cands ∨ (idx ∈ p.selected ∧ p.improved = true)) →
      idx ∈ ((cands.foldl (add_step tgt stc) p).selected) ∧
      (cands.foldl (add_step tgt stc) p).improved = true := by
  intro cands
  induction cands with
  | nil =>
    intro p h
    rcases h with h | h
    · exact absurd h (List.not_mem_nil idx)
    · exact h
  | cons j rest ih =>
    intro p h
    rw [List.foldl_cons]
    apply ih
    rcases h with h | h
    · rcases List.mem_cons.mp h with h2 | h2
      · subst h2
        right
        have hstep : add_step tgt stc p idx =
            { selected := insertSel idx p.selected, counts := dictAdd p.counts (stc.getD idx []),
              improved := true } := by
          simp only [add_step]
          rw [if_pos (hca p.counts)]
        rw [hstep]
        exact ⟨mem_insertSel.mpr (Or.inl rfl), rfl⟩
      · exact Or.inl h2
    · right
      obtain ⟨hin, himp⟩ := h
      by_cases hc : can_add_sentence tgt (stc.getD j []) p.counts = true
      · have hstep : add_step tgt stc p j =
            { selected := insertSel j p.selected, counts := dictAdd p.counts (stc.getD j []),
              improved := true } := by
          simp only [add_step]
          rw [if_pos hc]
        rw [hstep]
        exact ⟨mem_insertSel.mpr (Or.inr hin), rfl⟩
      · have hstep : add_step tgt stc p j = p := by
          simp only [add_step]
          rw [if_neg hc]
        rw [hstep]
        exact ⟨hin, himp⟩

/-- Membership in the sorting insertion. -/
theorem mem_insOrd {a x : Nat} : ∀ {l : List Nat}, a ∈ insOrd x l ↔ a = x ∨ a ∈ l := by
  intro l
  induction l with
  | nil => simp [insOrd]
  | cons y ys ih =>
    by_cases h : x ≤ y
    · have hx : insOrd x (y :: ys) = x :: y :: ys := by
        simp [insOrd, h]
      rw [hx]
      simp [List.mem_cons]
    · have hx : insOrd x (y :: ys) = y :: insOrd x ys := by
        simp [insOrd, h]
      rw [hx]
      simp only [List.mem_cons, ih]
      tauto

/-- Sorting keeps exactly the same members. -/
theorem mem_sortAsc {a : Nat} : ∀ {l : List Nat}, a ∈ sortAsc l ↔ a ∈ l := by
  intro l
  induction l with
  | nil => simp [sortAsc]
  | cons x xs ih =>
    have hx : sortAsc (x :: xs) = insOrd x (sortAsc xs) := rfl
    rw [hx]
    simp only [mem_insOrd, ih, List.mem_cons]

/-- One iteration churns an always-removable index: the removal pass drops it,
the addition pass re-adds it and marks the iteration improved. -/
theorem iterate_once_churn (tgt : List (Tag × Int)) (stc : List (List (Tag × Nat)))
    (n idx : Nat) (hno : ∀ p ∈ stc.getD idx [], lookupTag tgt p.1 = none)
    (hn : idx < n) (st : BState) (hmem : idx ∈ st.selected)
    (hs : List.Pairwise (· < ·) st.selected) :
    idx ∉ (removal_pass tgt stc ⟨st.selected, st.counts, false⟩).selected ∧
    idx ∈ (iterate_once tgt stc n st).1.selected ∧
    (iterate_once tgt stc n st).2 = true ∧
    List.Pairwise (· < ·) (iterate_once tgt stc n st).1.selected := by
  have hsc : ∀ cc : Tag → Int, should_remove_sentence tgt (stc.getD idx []) cc = true :=
    fun cc => should_remove_of_no_target tgt _ cc hno
  have hca : ∀ cc : Tag → Int, can_add_sentence tgt (stc.getD idx []) cc = true :=
    fun cc => can_add_of_no_target tgt _ cc hno
  have hnd : st.selected.Nodup := hs.imp (fun hlt => Nat.ne_of_lt hlt)
  have h1 : idx ∉ (removal_pass tgt stc ⟨st.selected, st.counts, false⟩).selected := by
    unfold removal_pass
    exact remove_fold_not_mem tgt stc idx hsc st.selected ⟨st.selected, st.counts, false⟩
      hnd hnd (Or.inl hmem)
  have hcand : idx ∈ (List.range n).filter
      (fun i => decide (i ∉ (removal_pass tgt stc ⟨st.selected, st.counts, false⟩).selected)) :=
    List.mem_filter.mpr ⟨List.mem_range.mpr hn, decide_eq_true h1⟩
  have h2 := add_fold_mem_improved tgt stc idx hca
    ((List.range n).filter
      (fun i => decide (i ∉ (removal_pass tgt stc ⟨st.selected, st.counts, false⟩).selected)))
    (removal_pass tgt stc ⟨st.selected, st.counts, false⟩) (Or.inl hcand)
  have hpw : List.Pairwise (· < ·) (iterate_once tgt stc n st).1.selected := by
    rw [iterate_once_sel]
    exact pass2_pw tgt stc n st hs
  refine ⟨h1, ?_, ?_, hpw⟩
  · rw [iterate_once_sel]
    exact h2.1
  · rw [iterate_once_imp]
    exact h2.2

/-- The loop never converges early in the presence of an always-churned index:
it runs its full fuel, and the index stays in the selection and in the
recorded best selection. -/
theorem balance_loop_churn (tgt : List (Tag × Int)) (stc : List (List (Tag × Nat)))
    (n idx : Nat) (hno : ∀ p ∈ stc.getD idx [], lookupTag tgt p.1 = none) (hn : idx < n) :
    ∀ (k : Nat) (st : BState), idx ∈ st.selected → List.Pairwise (· < ·) st.selected →
      idx ∈ st.best_selected →
      (balance_loop tgt stc n k st).2 = k ∧
      idx ∈ ((balance_loop tgt stc n k st).1).selected ∧
      idx ∈ ((balance_loop tgt stc n k st).1).best_selected := by
  intro k
  induction k with
  | zero => intro st h1 h2 h3; exact ⟨rfl, h1, h3⟩
  | succ k ih =>
    intro st h1 h2 h3
    have hstep := iterate_once_churn tgt stc n idx hno hn st h1 h2
    have hbsel : idx ∈ (iterate_once tgt stc n st).1.best_selected := by
      rw [iterate_once_bsel]
      by_cases hbt : betterThan (calculate_frequency_score tgt (pass2 tgt stc n st).counts)
          st.best_score = true
      · rw [if_pos hbt]
        have hm := hstep.2.1
        rw [iterate_once_sel] at hm
        exact hm
      · rw [if_neg hbt]
        exact h3
    have hrec := ih (iterate_once tgt stc n st).1 hstep.2.1 hstep.2.2.2 hbsel
    simp only [balance_loop]
    rw [hstep.2.2.1, if_pos rfl]
    refine ⟨?_, hrec.2.1, hrec.2.2⟩
    show (balance_loop tgt stc n k (iterate_once tgt stc n st).1).2 + 1 = k + 1
    rw [hrec.1]

/-- Claim C10: a sentence whose tag counts contain no target label (e.g. all
labels are the sentinel `O`) is removed by every removal pass and re-added by
every addition pass, so every iteration is marked improved, the
early-convergence exit is never taken — the loop runs exactly
`max_iterations` iterations (here with at least one iteration) — and the
sentence is present in the returned selection. -/
theorem churn_of_no_target_labels (tgt : List (Tag × Int)) (sents : List Sentence)
    (idx k : Nat) (h1 : idx < sents.length)
    (h2 : ∀ p ∈ get_sentence_tag_counts (sents.getD idx []), lookupTag tgt p.1 = none)
    (h3 : 0 < k) :
    (∀ st : BState, idx ∈ st.selected → List.Pairwise (· < ·) st.selected →
      idx ∉ (removal_pass tgt (sents.map get_sentence_tag_counts)
          ⟨st.selected, st.counts, false⟩).selected ∧
      idx ∈ (iterate_once tgt (sents.map get_sentence_tag_counts) sents.length st).1.selected ∧
      (iterate_once tgt (sents.map get_sentence_tag_counts) sents.length st).2 = true) ∧
    ((balance_loop tgt (sents.map get_sentence_tag_counts) sents.length k
        (initState (sents.map get_sentence_tag_counts) sents.length)).2 = k ∧
     idx ∈ ((balance_loop tgt (sents.map get_sentence_tag_counts) sents.length k
        (initState (sents.map get_sentence_tag_counts) sents.length)).1).best_selected ∧
     sents.getD idx [] ∈ balance_dataset tgt k sents) := by
  have hno : ∀ p ∈ (sents.map get_sentence_tag_counts).getD idx [],
      lookupTag tgt p.1 = none := by
    rw [getD_map_counts sents idx h1]
    exact h2
  constructor
  · intro st hmem hs
    have h := iterate_once_churn tgt (sents.map get_sentence_tag_counts) sents.length idx
      hno h1 st hmem hs
    exact ⟨h.1, h.2.1, h.2.2.1⟩
  obtain ⟨k', rfl⟩ : ∃ k', k = k' + 1 := ⟨k - 1, by omega⟩
  have hinit_mem : idx ∈ (initState (sents.map get_sentence_tag_counts)
      sents.length).selected := by
    show idx ∈ List.range sents.length
    exact List.mem_range.mpr h1
  have hinit_pw : List.Pairwise (· < ·)
      (initState (sents.map get_sentence_tag_counts) sents.length).selected :=
    List.pairwise_lt_range _
  have hstep := iterate_once_churn tgt (sents.map get_sentence_tag_counts) sents.length idx
    hno h1 _ hinit_mem hinit_pw
  have hbsel : idx ∈ (iterate_once tgt (sents.map get_sentence_tag_counts) sents.length
      (initState (sents.map get_sentence_tag_counts) sents.length)).1.best_selected := by
    rw [iterate_once_bsel]
    have hcond : betterThan
        (calculate_frequency_score tgt
          (pass2 tgt (sents.map get_sentence_tag_counts) sents.length
            (initState (sents.map get_sentence_tag_counts) sents.length)).counts)
        (initState (sents.map get_sentence_tag_counts) sents.length).best_score = true := rfl
    rw [if_pos hcond]
    have hm := hstep.2.1
    rw [iterate_once_sel] at hm
    exact hm
  have hrec := balance_loop_churn tgt (sents.map get_sentence_tag_counts) sents.length idx
    hno h1 k' _ hstep.2.1 hstep.2.2.2 hbsel
  have hunfold₁ : (balance_loop tgt (sents.map get_sentence_tag_counts) sents.length (k' + 1)
      (initState (sents.map get_sentence_tag_counts) sents.length)).1 =
      (balance_loop tgt (sents.map get_sentence_tag_counts) sents.length k'
        (iterate_once tgt (sents.map get_sentence_tag_counts) sents.length
          (initState (sents.map get_sentence_tag_counts) sents.length)).1).1 := by
    simp only [balance_loop]
    rw [hstep.2.2.1, if_pos rfl]
  have hunfold₂ : (balance_loop tgt (sents.map get_sentence_tag_counts) sents.length (k' + 1)
      (initState (sents.map get_sentence_tag_counts) sents.length)).2 =
      (balance_loop tgt (sents.map get_sentence_tag_counts) sents.length k'
        (iterate_once tgt (sents.map get_sentence_tag_counts) sents.length
          (initState (sents.map get_sentence_tag_counts) sents.length)).1).2 + 1 := by
    simp only [balance_loop]
    rw [hstep.2.2.1, if_pos rfl]
  refine ⟨?_, ?_, ?_⟩
  · rw [hunfold₂, hrec.1]
  · rw [hunfold₁]
    exact hrec.2.2
  · have hbs : idx ∈ ((balance_loop tgt (sents.map get_sentence_tag_counts) sents.length
        (k' + 1) (initState (sents.map get_sentence_tag_counts) sents.length)).1).best_selected := by
      rw [hunfold₁]
      exact hrec.2.2
    show sents.getD idx [] ∈ balance_dataset tgt (k' + 1) sents
    exact List.mem_map.mpr ⟨idx, mem_sortAsc.mpr hbs, rfl⟩

/-- Witness for C10: in a three-sentence corpus whose third sentence is all-O,
with two iterations the loop runs both, and the all-O sentence is in the
returned selection. -/
theorem churn_witness :
    (2 < ([exS1, exS2, exS3] : List Sentence).length ∧
     (∀ p ∈ get_sentence_tag_counts (([exS1, exS2, exS3] : List Sentence).getD 2 []),
        lookupTag exTargets p.1 = none) ∧ (0 : Nat) < 2) ∧
    ((balance_loop exTargets ([exS1, exS2, exS3].map get_sentence_tag_counts)
        ([exS1, exS2, exS3] : List Sentence).length 2
        (initState ([exS1, exS2, exS3].map get_sentence_tag_counts)
          ([exS1, exS2, exS3] : List Sentence).length)).2 = 2 ∧
     2 ∈ ((balance_loop exTargets ([exS1, exS2, exS3].map get_sentence_tag_counts)
        ([exS1, exS2, exS3] : List Sentence).length 2
        (initState ([exS1, exS2, exS3].map get_sentence_tag_counts)
          ([exS1, exS2, exS3] : List Sentence).length)).1).best_selected ∧
     ([exS1, exS2, exS3] : List Sentence).getD 2 [] ∈
        balance_dataset exTargets 2 [exS1, exS2, exS3]) :=
  ⟨⟨by decide, by decide, by decide⟩,
   (churn_of_no_target_labels exTargets [exS1, exS2, exS3] 2 2
     (by decide) (by decide) (by decide)).2⟩

end CoNLL
